import Mathlib

/-!
Verification of the electronics-catalog scripts.

This file gives a shallow embedding of the pure core of
`scripts/generate_id_registry.py` and `scripts/build_labels.py` and proves
the specified properties about it.

Modelling conventions:
* Python lists become `List`, Python sets of numbers become deduplicated
  `List Nat` (membership is all the code ever asks of them).
* Python strings become `String`; Python's `sorted` on strings is
  lexicographic on code points, which coincides with Lean's `≤` on `String`.
* Dictionaries built by insertion become association lists built by a fold.
* File-system access is abstracted: the persisted assignment file becomes an
  explicit `AssignmentFile` value, image files become a
  `String → Option Nat` height lookup.
-/

namespace Catalog

/-! ## Character and formatting helpers -/

/-- ASCII uppercase test, the `[A-Z]` character class of `ID_RE` (a literal
ASCII range in the pattern). -/
def isUpperAZ (c : Char) : Bool := 'A' ≤ c && c ≤ 'Z'

/-- ASCII digit test, the `[0-9]` character class of the spec's stated
pattern `^[A-Z]{2,3}[0-9]{3}$`. -/
def isDigit09 (c : Char) : Bool := '0' ≤ c && c ≤ '9'

/-- Base code points of the Unicode `Nd` (decimal digit) ranges, from
Unicode 15.0 (the database of current CPython): every `Nd` range is a run
of ten consecutive code points with decimal values `0..9`. -/
def ndBases : List Nat :=
  [0x30, 0x660, 0x6F0, 0x7C0, 0x966, 0x9E6, 0xA66, 0xAE6, 0xB66, 0xBE6,
   0xC66, 0xCE6, 0xD66, 0xDE6, 0xE50, 0xED0, 0xF20, 0x1040, 0x1090, 0x17E0,
   0x1810, 0x1946, 0x19D0, 0x1A80, 0x1A90, 0x1B50, 0x1BB0, 0x1C40, 0x1C50,
   0xA620, 0xA8D0, 0xA900, 0xA9D0, 0xA9F0, 0xAA50, 0xABF0, 0xFF10,
   0x104A0, 0x10D30, 0x11066, 0x110F0, 0x11136, 0x111D0, 0x112F0, 0x11450,
   0x114D0, 0x11650, 0x116C0, 0x11730, 0x118E0, 0x11950, 0x11C50, 0x11D50,
   0x11DA0, 0x11F50, 0x16A60, 0x16AC0, 0x16B50, 0x1D7CE, 0x1D7D8, 0x1D7E2,
   0x1D7EC, 0x1D7F6, 0x1E140, 0x1E2F0, 0x1E4F0, 0x1E950, 0x1FBF0]

/-- Unicode decimal digit test: the `\d` character class of `ID_RE`.
Python `re` without `re.ASCII` matches any character of category `Nd`. -/
def isDigitNd (c : Char) : Bool := ndBases.any fun b => b ≤ c.toNat && c.toNat < b + 10

/-- Decimal value of a digit character, as Python's `int()` converts it:
the offset inside its `Nd` run (`0` for a non-digit, never reached where
this is applied). -/
def digitVal (c : Char) : Nat :=
  match ndBases.find? (fun b => b ≤ c.toNat && c.toNat < b + 10) with
  | some b => c.toNat - b
  | none => 0

/-- Python's `f"{n:03d}"` for a natural number: decimal, left-padded with
zeros to a minimum width of 3. -/
def format3 (n : Nat) : String :=
  let s := toString n
  String.mk (List.replicate (3 - s.length) '0') ++ s

/-! ## `generate_id_registry.py`: identifier parsing

`ID_RE = re.compile(r"^([A-Z]{2,3})(\d{3})$")` used with `.match`.
Two Python semantics matter here: `\d` (without `re.ASCII`) matches any
Unicode decimal digit (category `Nd`), which `int()` also converts by
decimal value; and `$` (without `re.MULTILINE`) matches at the end of the
string or just before a newline at the end of the string, so the regex
accepts both `LETTERS ++ DIGITS` and `LETTERS ++ DIGITS ++ "\n"`. -/

/-- Does a character list consist of exactly 2 or 3 uppercase ASCII
letters followed by exactly 3 Unicode decimal digits?  This is the
language of `([A-Z]{2,3})(\d{3})` anchored on both sides: since an
uppercase ASCII letter is never a decimal digit, the greedy `{2,3}`
repetition matches exactly when the string has length 5 with a 2-letter
prefix or length 6 with a 3-letter prefix. -/
def coreMatch (cs : List Char) : Bool :=
  (cs.length == 5 && (cs.take 2).all isUpperAZ && (cs.drop 2).all isDigitNd)
    || (cs.length == 6 && (cs.take 3).all isUpperAZ && (cs.drop 3).all isDigitNd)

/-- Numeric value of a digit string, Python's `int(...)`. -/
def numOfDigits (ds : List Char) : Nat := ds.foldl (fun a c => 10 * a + digitVal c) 0

/-- The tuple `(cat, num, hund, is_anchor)` computed by `parse_id` from the
matched core: `cat = m.group(1)`, `num = int(m.group(2))`,
`hund = (num // 100) % 10`, `is_anchor = (num % 100 == 0)`. -/
def idFields (core : List Char) : String × Nat × Nat × Bool :=
  let k := core.length - 3
  let num := numOfDigits (core.drop k)
  (String.mk (core.take k), num, (num / 100) % 10, num % 100 == 0)

/-- The function `parse_id`: `ID_RE.match(comp_id)`; on success the groups, otherwise
`none` (the Python `(None, None, None, False)` non-conforming result).
The second branch is the documented behaviour of `$`: a match that stops
just before a single trailing newline. -/
def parse_id (s : String) : Option (String × Nat × Nat × Bool) :=
  if coreMatch s.data then some (idFields s.data)
  else if s.data.getLast? == some '\n' && coreMatch s.data.dropLast then
    some (idFields s.data.dropLast)
  else none

/-- Spec-side shape of a conforming identifier, following the spec's words
`^[A-Z]{2,3}[0-9]{3}$`: two or three uppercase letters followed by exactly
three ASCII digits and nothing else. -/
def ConformingShape (cs : List Char) : Prop :=
  ∃ L D : List Char, 2 ≤ L.length ∧ L.length ≤ 3 ∧ (∀ c ∈ L, isUpperAZ c = true) ∧
    D.length = 3 ∧ (∀ c ∈ D, isDigit09 c = true) ∧ cs = L ++ D

/-- Source-side shape: two or three uppercase ASCII letters followed by
exactly three Unicode decimal digits (Python's `\d`) and nothing else. -/
def PyConformingShape (cs : List Char) : Prop :=
  ∃ L D : List Char, 2 ≤ L.length ∧ L.length ≤ 3 ∧ (∀ c ∈ L, isUpperAZ c = true) ∧
    D.length = 3 ∧ (∀ c ∈ D, isDigitNd c = true) ∧ cs = L ++ D

/-- Executable form of the spec-side shape, used to refute it at concrete
inputs. -/
def asciiMatch (cs : List Char) : Bool :=
  (cs.length == 5 && (cs.take 2).all isUpperAZ && (cs.drop 2).all isDigit09)
    || (cs.length == 6 && (cs.take 3).all isUpperAZ && (cs.drop 3).all isDigit09)

/-! ## `generate_id_registry.py`: next-free search -/

/-- The numeric search of `next_number`: first `n` in `range(1, 1000)` not
in the used set. -/
def next_number_num (used : List Nat) : Option Nat :=
  (List.range' 1 999).find? (fun n => !(decide (n ∈ used)))

/-- The function `next_number(used_nums)`: the first free number in `1..999` formatted
as `f"{n:03d}"`, or `None` when all are used. -/
def next_number (used : List Nat) : Option String :=
  (next_number_num used).map format3

/-- The numeric search of `next_in_family`: `base = hund * 100`; return
`base` when free, otherwise the first free `base + off` for
`off in range(0, 100)`. -/
def next_in_family_num (used : List Nat) (hund : Nat) : Option Nat :=
  if hund * 100 ∈ used then
    (List.range' (hund * 100) 100).find? (fun n => !(decide (n ∈ used)))
  else some (hund * 100)

/-- The function `next_in_family(used_nums, hund)`: the numeric search formatted as
`f"{n:03d}"`. -/
def next_in_family (used : List Nat) (hund : Nat) : Option String :=
  (next_in_family_num used hund).map format3

/-! ## `generate_id_registry.py`: the registry pipeline -/

/-- One entry of the `items` list built by `main` (only the fields the
reports depend on): the identifier, its parsed category / number /
hundreds digit, and `is_family_anchor = is_anchor and (md.name.lower() == "index.md")`. -/
structure Item where
  id : String
  category : String
  number : Nat
  hundreds : Nat
  is_family_anchor : Bool
deriving Repr, DecidableEq

/-- The scan loop of `main`: each raw input is an identifier together with
whether its file is an `index.md`.  Non-conforming identifiers are skipped
(`skip-nonstandard-id` warning), conforming ones become items. -/
def mkItems (raws : List (String × Bool)) : List Item :=
  raws.filterMap fun r =>
    match parse_id r.1 with
    | none => none
    | some (cat, num, hund, anch) => some ⟨r.1, cat, num, hund, anch && r.2⟩

/-- The family key `f'{category}{hundreds}xx'` of an item. -/
def famKey (it : Item) : String := it.category ++ toString it.hundreds ++ "xx"

/-- The `anchors` set: family keys of all items with `is_family_anchor`
(a list whose membership is the set's membership). -/
def anchorsOf (items : List Item) : List String :=
  (items.filter fun it => it.is_family_anchor).map famKey

/-- Append a member to the association list entry for `key`, creating the
entry when absent — the `families.setdefault(...)["members"].append(...)`
step on an insertion-ordered dictionary. -/
def addMember : List (String × List String) → String → String → List (String × List String)
  | [], key, cid => [(key, [cid])]
  | (k, ms) :: rest, key, cid =>
      if k = key then (k, ms ++ [cid]) :: rest
      else (k, ms) :: addMember rest key cid

/-- One iteration of the family-building loop: items whose family key has
no anchor are skipped, the rest are appended to their family. -/
def famStep (anchors : List String) (fams : List (String × List String)) (it : Item) :
    List (String × List String) :=
  if famKey it ∈ anchors then addMember fams (famKey it) it.id else fams

/-- Sort key for family members: the parsed number of the identifier,
`0` when it does not parse (`id_num` in the source). -/
def id_num (cid : String) : Nat :=
  match parse_id cid with
  | some (_, n, _, _) => n
  | none => 0

/-- The `families` mapping of `main`: fold the family-building loop over
all items (anchors having been collected first), then sort each family's
members by `id_num`. -/
def buildFamilies (items : List Item) : List (String × List String) :=
  let anchors := anchorsOf items
  (items.foldl (famStep anchors) []).map fun p =>
    (p.1, p.2.insertionSort fun a b => id_num a ≤ id_num b)

/-- The set `used_by_cat[cat]` as the sorted deduplicated list `sorted(set(nums))`
that `main` derives from it. -/
def usedNumbersOf (items : List Item) (cat : String) : List Nat :=
  (((items.filter fun it => it.category == cat).map Item.number).dedup).insertionSort (· ≤ ·)

/-- The table `CATEGORY_TITLES`: the fixed closed set of known category codes. -/
def CATEGORY_TITLES : List (String × String) :=
  [("TS", "Temperature sensors (DS18B20, PT100, MAX31865, etc.)"),
   ("ENV", "Environmental sensors (BME280/BMP280, SHT4x, TSL2561…)"),
   ("PS", "Power supplies/chargers/regulators (buck, LDO, TP4056…)"),
   ("MC", "Microcontrollers / dev boards (ESP32, RP2040…)"),
   ("RF", "Radios / comms (LoRa, nRF24, ESP-Now modules…)"),
   ("IO", "I/O expanders / ADC / DAC / level shifting"),
   ("AC", "Actuators (fans, motors, servos, relays, MOSFET boards)"),
   ("CN", "Connectors / cables / adapters"),
   ("PA", "Passive Components (resistors, capacitors, potentiometers, trim pots)"),
   ("OT", "Other / misc")]

/-- One entry of the `categories` report. -/
structure CatEntry where
  title : String
  count : Nat
  used_numbers : List Nat
  next_any : Option String
  next_by_family : List (String × String)
deriving Repr, DecidableEq

/-- The expression `int(fk[len(cat_code)])` guarded by `try/except`: the character of the
family key just after the category code, when it is a digit. -/
def hundOfFamKey (code fk : String) : Option Nat :=
  match fk.data.drop code.length with
  | c :: _ => if isDigitNd c then some (digitVal c) else none
  | [] => none

/-- The `next_by_family` mapping for one category: anchored family keys
starting with the code (a set, so deduplicated), sorted, each mapped to
`f"{cat_code}{cand}"` when `next_in_family` finds a candidate. -/
def nextByFamily (anchors : List String) (code : String) (used : List Nat) :
    List (String × String) :=
  (((anchors.filter fun fk => code.isPrefixOf fk).dedup).insertionSort (· ≤ ·)).filterMap
    fun fk =>
      match hundOfFamKey code fk with
      | none => none
      | some hund =>
        match next_in_family used hund with
        | none => none
        | some cand => some (fk, code ++ cand)

/-- The `categories` report of `main`: built for ALL predefined categories,
in the fixed order of `CATEGORY_TITLES`, from the data's used numbers. -/
def buildCategories (items : List Item) : List (String × CatEntry) :=
  let anchors := anchorsOf items
  CATEGORY_TITLES.map fun p =>
    let code := p.1
    let nums := usedNumbersOf items code
    let nextAny : Option String := if nums.isEmpty then some "001" else next_number nums
    (code,
      { title := p.2
        count := nums.length
        used_numbers := nums
        next_any := nextAny.map fun s => code ++ s
        next_by_family := nextByFamily anchors code nums })

/-! ## `build_labels.py`: stable order -/

/-- The state of the persisted `assignment.json` file. -/
inductive AssignmentFile
  | missing
  | malformed
  | parsed (order : List String)
deriving Repr, DecidableEq

/-- The function `load_assignment`: the stored order when the file exists and parses to
a dictionary with a list under `"order"`, otherwise the empty list. -/
def load_assignment : AssignmentFile → List String
  | .missing => []
  | .malformed => []
  | .parsed order => order

/-- The pure core of `build_order`: previously kept identifiers that are
still current, in their stored order, followed by the fresh identifiers
sorted (Python's `sorted`, lexicographic on code points). -/
def build_order (prev comp_ids : List String) : List String :=
  let keep := prev.filter fun cid => decide (cid ∈ comp_ids)
  let fresh := (comp_ids.filter fun cid => !(decide (cid ∈ prev))).insertionSort (· ≤ ·)
  keep ++ fresh

/-- The function `build_order` as called: the previous order loaded from the persisted
file. -/
def build_order_from (f : AssignmentFile) (comp_ids : List String) : List String :=
  build_order (load_assignment f) comp_ids

/-! ## `build_labels.py`: sheet packing -/

/-- The constant `LABEL_GAP_PX = 8`, the vertical gap between labels on a sheet. -/
def LABEL_GAP_PX : Nat := 8

/-- The output file name `f"sheet_{sheet_index:03d}.png"`. -/
def sheetName (idx : Nat) : String := "sheet_" ++ format3 idx ++ ".png"

/-- One row of `sheets_meta` / `sheets.csv`. -/
structure SheetMeta where
  sheet : String
  height_px : Nat
  labels : Nat
deriving Repr, DecidableEq

/-- One row of `positions` / `sheet_positions.csv`. -/
structure Placement where
  sheet : String
  position : Nat
  id : String
deriving Repr, DecidableEq

/-- The consecutive chunks `seq[i:i+4]` taken by the packing loop. -/
def chunk4 {α : Type} : List α → List (List α)
  | [] => []
  | [a] => [[a]]
  | [a, b] => [[a, b]]
  | [a, b, c] => [[a, b, c]]
  | a :: b :: c :: d :: rest => [a, b, c, d] :: chunk4 rest

/-- The packing loop of `pack_sheets_stable`, from sheet index `idx`:
each iteration takes the chunk `seq[i:i+4]`, records its metadata row
(total height `sum(im.height) + LABEL_GAP_PX * max(0, len - 1)`) and its
placements (`enumerate(chunk, start=1)`), and advances `i` by the chunk
length. -/
def packLoop (h : String → Nat) : Nat → List String → List SheetMeta × List Placement
  | _, [] => ([], [])
  | idx, a :: rest =>
    let chunk := a :: rest.take 3
    let total := (chunk.map h).sum + LABEL_GAP_PX * (chunk.length - 1)
    let r := packLoop h (idx + 1) (rest.drop 3)
    (⟨sheetName idx, total, chunk.length⟩ :: r.1,
      ((chunk.enumFrom 1).map fun q => ⟨sheetName idx, q.1, q.2⟩) ++ r.2)
termination_by _ l => l.length
decreasing_by simp [List.length_drop]; omega

/-- The function `pack_sheets_stable(id_to_img, order)`: identifiers of the stable order
that have an artifact (`seq = [cid for cid in order if cid in img_map]`),
packed by the loop starting at sheet index 1.  Image files are abstracted
to a height lookup. -/
def pack_sheets_stable (height : String → Option Nat) (order : List String) :
    List SheetMeta × List Placement :=
  let seq := order.filter fun cid => (height cid).isSome
  packLoop (fun cid => (height cid).getD 0) 1 seq

/-! ## Helper lemmas -/

/-- Running `find?` over `range' s n` returns `a` exactly when `a` is the least
element of the interval satisfying the predicate. -/
theorem find?_range'_eq_some {p : Nat → Bool} {a : Nat} :
    ∀ {n s : Nat}, ((List.range' s n).find? p = some a) ↔
      (s ≤ a ∧ a < s + n ∧ p a = true ∧ ∀ k, s ≤ k → k < a → p k = false) := by
  intro n
  induction n with
  | zero =>
    intro s
    simp only [List.range'_zero, List.find?_nil]
    constructor
    · intro h; exact absurd h (by simp)
    · rintro ⟨h1, h2, -, -⟩; omega
  | succ m ih =>
    intro s
    rw [List.range'_succ, List.find?_cons]
    cases hps : p s with
    | true =>
      simp only []
      constructor
      · intro h
        obtain rfl : s = a := Option.some.inj h
        exact ⟨le_refl _, by omega, hps, fun k hk1 hk2 => absurd hk2 (by omega)⟩
      · rintro ⟨h1, h2, h3, h4⟩
        rcases eq_or_lt_of_le h1 with rfl | hlt
        · rfl
        · exact absurd hps (by simp [h4 s (le_refl _) hlt])
    | false =>
      simp only []
      rw [ih]
      constructor
      · rintro ⟨h1, h2, h3, h4⟩
        refine ⟨by omega, by omega, h3, fun k hk1 hk2 => ?_⟩
        rcases eq_or_lt_of_le hk1 with rfl | hk
        · exact hps
        · exact h4 k hk hk2
      · rintro ⟨h1, h2, h3, h4⟩
        have hsa : s < a := by
          rcases eq_or_lt_of_le h1 with rfl | hk
          · rw [hps] at h3; exact absurd h3 (by simp)
          · exact hk
        exact ⟨by omega, by omega, h3, fun k hk1 hk2 => h4 k (by omega) hk2⟩

/-- Running `find?` over `range' s n` fails exactly when no element of the interval
satisfies the predicate. -/
theorem find?_range'_eq_none {p : Nat → Bool} {s n : Nat} :
    ((List.range' s n).find? p = none) ↔ ∀ k, s ≤ k → k < s + n → p k = false := by
  rw [List.find?_eq_none]
  constructor
  · intro h k h1 h2
    have := h k (List.mem_range'_1.mpr ⟨h1, h2⟩)
    simpa using this
  · intro h x hx
    have hm := List.mem_range'_1.mp hx
    simp [h x hm.1 hm.2]

/-- A list ends with `a` exactly when it is some list followed by `[a]`. -/
theorem getLast?_eq_some_iff {α : Type} {l : List α} {a : α} :
    l.getLast? = some a ↔ ∃ l', l = l' ++ [a] := by
  induction l using List.reverseRecOn with
  | nil => simp
  | append_singleton l' b _ =>
    rw [List.getLast?_concat]
    constructor
    · intro h
      obtain rfl : b = a := Option.some.inj h
      exact ⟨l', rfl⟩
    · rintro ⟨l'', h⟩
      have := congrArg List.getLast? h
      rw [List.getLast?_concat, List.getLast?_concat] at this
      exact this

/-- The length-dispatch matcher decides exactly the letters-then-digits
shape, for any letter class and digit class. -/
theorem shape_iff {upper digit : Char → Bool} {cs : List Char} :
    ((cs.length == 5 && (cs.take 2).all upper && (cs.drop 2).all digit)
        || (cs.length == 6 && (cs.take 3).all upper && (cs.drop 3).all digit)) = true ↔
      ∃ L D : List Char, 2 ≤ L.length ∧ L.length ≤ 3 ∧ (∀ c ∈ L, upper c = true) ∧
        D.length = 3 ∧ (∀ c ∈ D, digit c = true) ∧ cs = L ++ D := by
  constructor
  · intro h
    simp only [Bool.or_eq_true, Bool.and_eq_true, beq_iff_eq, List.all_eq_true] at h
    rcases h with ⟨⟨h5, hU⟩, hD⟩ | ⟨⟨h6, hU⟩, hD⟩
    · refine ⟨cs.take 2, cs.drop 2, ?_, ?_, hU, ?_, hD, (List.take_append_drop 2 cs).symm⟩
      · simp [List.length_take, h5]
      · simp [List.length_take, h5]
      · simp [List.length_drop, h5]
    · refine ⟨cs.take 3, cs.drop 3, ?_, ?_, hU, ?_, hD, (List.take_append_drop 3 cs).symm⟩
      · simp [List.length_take, h6]
      · simp [List.length_take, h6]
      · simp [List.length_drop, h6]
  · rintro ⟨L, D, hL2, hL3, hU, hD3, hD, rfl⟩
    simp only [Bool.or_eq_true, Bool.and_eq_true, beq_iff_eq, List.all_eq_true]
    have hcase : L.length = 2 ∨ L.length = 3 := by omega
    rcases hcase with h2 | h3
    · left
      refine ⟨⟨?_, ?_⟩, ?_⟩
      · simp [List.length_append, h2, hD3]
      · intro c hc
        rw [List.take_left' h2] at hc
        exact hU c hc
      · intro c hc
        rw [List.drop_left' h2] at hc
        exact hD c hc
    · right
      refine ⟨⟨?_, ?_⟩, ?_⟩
      · simp [List.length_append, h3, hD3]
      · intro c hc
        rw [List.take_left' h3] at hc
        exact hU c hc
      · intro c hc
        rw [List.drop_left' h3] at hc
        exact hD c hc

/-- The predicate `coreMatch` decides exactly the source-side shape: 2 or 3
uppercase ASCII letters followed by exactly 3 Unicode decimal digits. -/
theorem coreMatch_iff {cs : List Char} : coreMatch cs = true ↔ PyConformingShape cs := by
  unfold coreMatch PyConformingShape
  exact shape_iff

/-- The predicate `asciiMatch` decides exactly the spec-side shape: 2 or 3
uppercase letters followed by exactly 3 ASCII digits. -/
theorem asciiMatch_iff {cs : List Char} : asciiMatch cs = true ↔ ConformingShape cs := by
  unfold asciiMatch ConformingShape
  exact shape_iff

/-- On a successful parse, the anchor-candidate flag and the hundreds block
are determined by the parsed number exactly as the source computes them. -/
theorem parse_id_eq_some {s cat : String} {num hund : Nat} {anch : Bool}
    (h : parse_id s = some (cat, num, hund, anch)) :
    anch = (num % 100 == 0) ∧ hund = (num / 100) % 10 := by
  unfold parse_id at h
  split_ifs at h with h1 h2
  · simp only [idFields, Option.some.injEq, Prod.mk.injEq] at h
    obtain ⟨-, rfl, rfl, rfl⟩ := h
    exact ⟨rfl, rfl⟩
  · simp only [idFields, Option.some.injEq, Prod.mk.injEq] at h
    obtain ⟨-, rfl, rfl, rfl⟩ := h
    exact ⟨rfl, rfl⟩

/-! ## Claim theorems: next-free search (C4, C5) -/

set_option maxRecDepth 4000 in
/-- Formatting by `f"{n:03d}"` produces exactly 3 characters for every `n` up to 999. -/
theorem format3_length : ∀ n < 1000, (format3 n).length = 3 := by decide

/-- C5. For every used-number list, `next_number` returns the smallest
integer in `[1, 999]` not in it, formatted as a 3-character zero-padded
string, and `none` when all of `1..999` are used; it never returns a used
number. -/
theorem next_number_spec (used : List Nat) :
    (next_number used = none ↔ ∀ n, 1 ≤ n → n ≤ 999 → n ∈ used) ∧
    (∀ n, next_number_num used = some n →
      next_number used = some (format3 n) ∧ 1 ≤ n ∧ n ≤ 999 ∧ n ∉ used ∧
        (∀ k, 1 ≤ k → k < n → k ∈ used) ∧ (format3 n).length = 3) := by
  constructor
  · unfold next_number next_number_num
    rw [Option.map_eq_none']
    rw [find?_range'_eq_none]
    constructor
    · intro h n h1 h2
      have := h n h1 (by omega)
      simpa using this
    · intro h k h1 h2
      simp [h k h1 (by omega)]
  · intro n hn
    have hspec := (find?_range'_eq_some (p := fun n => !(decide (n ∈ used)))).mp hn
    obtain ⟨h1, h2, h3, h4⟩ := hspec
    refine ⟨?_, h1, by omega, by simpa using h3, fun k hk1 hk2 => ?_, ?_⟩
    · unfold next_number
      rw [hn]
      rfl
    · have := h4 k hk1 hk2
      simpa using this
    · exact format3_length n (by omega)

/-- C5 witness: `usedNumbers = {1, 2, 3}` yields `"004"`, a number not in
the used set. -/
theorem next_number_spec_witness :
    next_number [1, 2, 3] = some "004" ∧ (4 : Nat) ∉ [1, 2, 3] := by
  have h := (next_number_spec [1, 2, 3]).2 4 (by decide)
  refine ⟨?_, h.2.2.2.1⟩
  rw [h.1]
  decide

/-- C4. `next_in_family` returns the block base `h*100` when it is unused,
otherwise the smallest unused number of the 100-wide block, formatted by
`format3`; it returns `none` exactly when the whole block is used, and any
returned number lies inside the block. -/
theorem next_in_family_spec (used : List Nat) (h : Nat) :
    (h * 100 ∉ used → next_in_family_num used h = some (h * 100)) ∧
    (next_in_family_num used h = none ↔
      ∀ n, h * 100 ≤ n → n < h * 100 + 100 → n ∈ used) ∧
    (∀ n, next_in_family_num used h = some n →
      next_in_family used h = some (format3 n) ∧
      h * 100 ≤ n ∧ n < h * 100 + 100 ∧ n ∉ used ∧
        ∀ k, h * 100 ≤ k → k < n → k ∈ used) := by
  refine ⟨?_, ?_, ?_⟩
  · intro hfree
    unfold next_in_family_num
    rw [if_neg hfree]
  · unfold next_in_family_num
    by_cases hbase : h * 100 ∈ used
    · rw [if_pos hbase]
      rw [find?_range'_eq_none]
      constructor
      · intro hall n h1 h2
        have := hall n h1 (by omega)
        simpa using this
      · intro hall k h1 h2
        simp [hall k h1 (by omega)]
    · rw [if_neg hbase]
      constructor
      · intro hcontra; exact absurd hcontra (by simp)
      · intro hall
        exact absurd (hall (h * 100) (le_refl _) (by omega)) hbase
  · intro n hn
    have hform : next_in_family used h = some (format3 n) := by
      unfold next_in_family
      rw [hn]
      rfl
    unfold next_in_family_num at hn
    by_cases hbase : h * 100 ∈ used
    · rw [if_pos hbase] at hn
      have hspec := (find?_range'_eq_some (p := fun n => !(decide (n ∈ used)))).mp hn
      obtain ⟨h1, h2, h3, h4⟩ := hspec
      refine ⟨hform, h1, by omega, by simpa using h3, fun k hk1 hk2 => ?_⟩
      have := h4 k hk1 hk2
      simpa using this
    · rw [if_neg hbase] at hn
      obtain rfl : h * 100 = n := Option.some.inj hn
      exact ⟨hform, le_refl _, by omega, hbase, fun k hk1 hk2 => absurd hk2 (by omega)⟩

/-- C4 witness: block 0 fully used except `50` yields `"050"`, which is
inside the block and not used. -/
theorem next_in_family_spec_witness :
    next_in_family ((List.range 100).filter fun n => n != 50) 0 = some "050" ∧
    (50 : Nat) ∉ (List.range 100).filter (fun n => n != 50) ∧
    (0 * 100 ≤ 50 ∧ 50 < 0 * 100 + 100) := by
  have h := (next_in_family_spec ((List.range 100).filter fun n => n != 50) 0).2.2 50
    (by decide)
  refine ⟨?_, h.2.2.2.1, h.2.1, h.2.2.1⟩
  rw [h.1]
  decide

/-! ## Claim theorems: identifier parsing (C6) -/

/-- C6 counterexample: two strings not of the claimed
`^[A-Z]{2,3}[0-9]{3}$`-and-nothing-else shape that `parse_id` nevertheless
accepts. `"AB123\n"` has a trailing character, accepted because Python's
`$` also matches just before a newline at the end of the string; `"AB٥٥٥"`
carries Arabic-Indic digits, accepted (with `int` value 555) because
Python's `\d` matches any Unicode decimal digit. -/
theorem parse_id_counterexample :
    (parse_id "AB123\n").isSome = true ∧ ¬ ConformingShape "AB123\n".data ∧
    parse_id "AB٥٥٥" = some ("AB", 555, 5, false) ∧ ¬ ConformingShape "AB٥٥٥".data := by
  refine ⟨by decide, ?_, by decide, ?_⟩
  · intro h
    exact absurd (asciiMatch_iff.mpr h) (by decide)
  · intro h
    exact absurd (asciiMatch_iff.mpr h) (by decide)

/-- C6 amended. `parse_id` yields a structured identifier exactly when the
input is 2–3 uppercase ASCII letters followed by exactly 3 Unicode decimal
digits (Python's `\d`, converted by decimal value), optionally followed by
one trailing newline (Python `re.match` with `$`); everything else is
non-conforming. -/
theorem parse_id_conforming_iff (s : String) :
    (parse_id s).isSome = true ↔
      PyConformingShape s.data ∨ ∃ cs, s.data = cs ++ ['\n'] ∧ PyConformingShape cs := by
  unfold parse_id
  by_cases h1 : coreMatch s.data = true
  · rw [if_pos h1]
    simp only [Option.isSome_some, true_iff]
    exact Or.inl (coreMatch_iff.mp h1)
  · by_cases h2 : s.data.getLast? = some '\n' ∧ coreMatch s.data.dropLast = true
    · obtain ⟨h2a, h2b⟩ := h2
      have hcond : (s.data.getLast? == some '\n' && coreMatch s.data.dropLast) = true := by
        simp [h2a, h2b]
      rw [if_neg h1, if_pos hcond]
      simp only [Option.isSome_some, true_iff]
      obtain ⟨l', hl⟩ := getLast?_eq_some_iff.mp h2a
      rw [hl, List.dropLast_concat] at h2b
      exact Or.inr ⟨l', hl, coreMatch_iff.mp h2b⟩
    · have hcond : ¬((s.data.getLast? == some '\n' && coreMatch s.data.dropLast) = true) := by
        intro hc
        simp only [Bool.and_eq_true, beq_iff_eq] at hc
        exact h2 hc
      rw [if_neg h1, if_neg hcond]
      constructor
      · intro hcontra
        exact absurd hcontra (by simp)
      · rintro (hC | ⟨cs, hcs, hC⟩)
        · exact absurd (coreMatch_iff.mpr hC) h1
        · exfalso
          refine h2 ⟨?_, ?_⟩
          · rw [hcs]; exact List.getLast?_concat _
          · rw [hcs, List.dropLast_concat]; exact coreMatch_iff.mpr hC

/-! ## Helper lemmas: chunking and the packing loop -/

/-- Unfolding `chunk4` one step: the head chunk is `seq[0:4]`, the rest is
chunked from `seq[4:]`. -/
theorem chunk4_cons {α : Type} (a : α) (rest : List α) :
    chunk4 (a :: rest) = (a :: rest.take 3) :: chunk4 (rest.drop 3) := by
  match rest with
  | [] => rfl
  | [b] => rfl
  | [b, c] => rfl
  | b :: c :: d :: rest' => rfl

/-- The chunks concatenate back to the original list: nothing is dropped,
duplicated, or split across a chunk boundary. -/
theorem chunk4_flatten {α : Type} (l : List α) : (chunk4 l).flatten = l := by
  induction l using chunk4.induct with
  | case1 => rfl
  | case2 a => rfl
  | case3 a b => rfl
  | case4 a b c => rfl
  | case5 a b c d rest ih => simp [chunk4, ih]

/-- Every chunk holds between 1 and 4 elements. -/
theorem chunk4_length_bounds {α : Type} (l : List α) :
    ∀ c ∈ chunk4 l, 1 ≤ c.length ∧ c.length ≤ 4 := by
  induction l using chunk4.induct with
  | case1 => intro c hc; simp [chunk4] at hc
  | case2 a => intro c hc; simp [chunk4] at hc; simp [hc]
  | case3 a b => intro c hc; simp [chunk4] at hc; simp [hc]
  | case4 a b c => intro e he; simp [chunk4] at he; simp [he]
  | case5 a b c d rest ih =>
    intro e he
    simp only [chunk4, List.mem_cons] at he
    rcases he with rfl | he
    · simp
    · exact ih e he

/-- Every chunk except possibly the last holds exactly 4 elements. -/
theorem chunk4_dropLast_length {α : Type} (l : List α) :
    ∀ c ∈ (chunk4 l).dropLast, c.length = 4 := by
  induction l using chunk4.induct with
  | case1 => simp [chunk4]
  | case2 a => simp [chunk4]
  | case3 a b => simp [chunk4]
  | case4 a b c => simp [chunk4]
  | case5 a b c d rest ih =>
    intro e he
    rw [show chunk4 (a :: b :: c :: d :: rest) = [a, b, c, d] :: chunk4 rest from rfl] at he
    cases hr : chunk4 rest with
    | nil => rw [hr] at he; simp at he
    | cons c0 cs =>
      rw [hr] at he
      rw [List.dropLast_cons₂] at he
      rcases List.mem_cons.mp he with rfl | he'
      · rfl
      · exact ih e (by rw [hr]; exact he')

/-- Closed form of the packing loop: metadata rows and placements are
exactly those generated from the 4-chunks of the sequence, sheets numbered
from `idx` and positions within a sheet numbered from 1. -/
theorem packLoop_eq (h : String → Nat) (idx : Nat) (l : List String) :
    packLoop h idx l =
      (((chunk4 l).enumFrom idx).map fun p =>
          ⟨sheetName p.1, (p.2.map h).sum + LABEL_GAP_PX * (p.2.length - 1), p.2.length⟩,
        ((chunk4 l).enumFrom idx).flatMap fun p =>
          (p.2.enumFrom 1).map fun q => ⟨sheetName p.1, q.1, q.2⟩) := by
  induction l using chunk4.induct generalizing idx with
  | case1 => simp [packLoop, chunk4]
  | case2 a => simp [packLoop, chunk4, List.enumFrom]
  | case3 a b => simp [packLoop, chunk4, List.enumFrom]
  | case4 a b c => simp [packLoop, chunk4, List.enumFrom]
  | case5 a b c d rest ih =>
    rw [packLoop]
    simp only [List.take, List.drop]
    rw [ih (idx + 1)]
    rw [show chunk4 (a :: b :: c :: d :: rest) = [a, b, c, d] :: chunk4 rest from rfl]
    simp [List.enumFrom_cons, List.enumFrom, List.flatMap_cons]

/-- Rewriting `pack_sheets_stable` in closed form over the chunks of the sequence of
identifiers that have an artifact. -/
theorem pack_sheets_stable_eq (height : String → Option Nat) (order : List String) :
    pack_sheets_stable height order =
      (((chunk4 (order.filter fun cid => (height cid).isSome)).enumFrom 1).map fun p =>
          ⟨sheetName p.1,
            (p.2.map fun cid => (height cid).getD 0).sum + LABEL_GAP_PX * (p.2.length - 1),
            p.2.length⟩,
        ((chunk4 (order.filter fun cid => (height cid).isSome)).enumFrom 1).flatMap fun p =>
          (p.2.enumFrom 1).map fun q => ⟨sheetName p.1, q.1, q.2⟩) := by
  unfold pack_sheets_stable
  exact packLoop_eq _ 1 _

/-- The identifiers of the emitted placements, in order: flattening the
enumerated chunks gives back the sequence. -/
theorem pack_ids (height : String → Option Nat) (order : List String) :
    (pack_sheets_stable height order).2.map Placement.id
      = order.filter fun cid => (height cid).isSome := by
  rw [pack_sheets_stable_eq]
  have hflat : ∀ (L : List (List String)) (n : Nat),
      ((L.enumFrom n).flatMap fun p =>
          (p.2.enumFrom 1).map fun q => (⟨sheetName p.1, q.1, q.2⟩ : Placement)).map
        Placement.id = L.flatten := by
    intro L
    induction L with
    | nil => intro n; rfl
    | cons c cs ih =>
      intro n
      rw [List.enumFrom_cons, List.flatMap_cons, List.map_append, ih]
      rw [List.map_map]
      rw [show (Placement.id ∘ fun q : Nat × String =>
        (⟨sheetName n, q.1, q.2⟩ : Placement)) = Prod.snd from rfl]
      rw [List.enumFrom_map_snd]
      rfl
  rw [hflat, chunk4_flatten]

/-- The label counts of the emitted sheets sum to the number of packed
identifiers. -/
theorem pack_labels_sum (height : String → Option Nat) (order : List String) :
    ((pack_sheets_stable height order).1.map SheetMeta.labels).sum
      = (order.filter fun cid => (height cid).isSome).length := by
  rw [pack_sheets_stable_eq]
  have hmap : ∀ (L : List (List String)) (n : Nat),
      ((L.enumFrom n).map fun p : Nat × List String =>
          (⟨sheetName p.1,
            (p.2.map fun cid => (height cid).getD 0).sum + LABEL_GAP_PX * (p.2.length - 1),
            p.2.length⟩ : SheetMeta)).map SheetMeta.labels = L.map List.length := by
    intro L
    induction L with
    | nil => intro n; rfl
    | cons c cs ih => intro n; simp only [List.enumFrom_cons, List.map_cons, ih]
  rw [List.map_map]
  rw [show (SheetMeta.labels ∘ fun p : Nat × List String =>
      (⟨sheetName p.1,
        (p.2.map fun cid => (height cid).getD 0).sum + LABEL_GAP_PX * (p.2.length - 1),
        p.2.length⟩ : SheetMeta)) = (fun p : Nat × List String => p.2.length) from rfl]
  rw [show (fun p : Nat × List String => p.2.length) = List.length ∘ Prod.snd from rfl]
  rw [← List.map_map, List.enumFrom_map_snd]
  rw [← List.length_flatten, chunk4_flatten]

/-! ## Claim theorems: sheet packing (C2, C7, C10) -/

/-- C2 counterexample: three artifacts of height 100 are all packed onto a
single sheet of total height `316 = 3·100 + 2·8`, which exceeds 250 while
holding 3 labels — the packer enforces no height bound at all (the claimed
policy would emit two sheets). -/
theorem pack_not_height_bounded :
    (pack_sheets_stable (fun _ => some 100) ["CN001", "CN002", "CN003"]).1.map
        SheetMeta.labels = [3] ∧
    (pack_sheets_stable (fun _ => some 100) ["CN001", "CN002", "CN003"]).1.map
        SheetMeta.height_px = [316] ∧
    ¬(316 ≤ 250) ∧ (3 : Nat) ≠ 1 := by
  refine ⟨?_, ?_, by decide, by decide⟩
  · rw [pack_sheets_stable_eq]; decide
  · rw [pack_sheets_stable_eq]; decide

/-- C2 amended. Every emitted sheet contains between 1 and 4 labels (the
packer takes artifacts in stable order in fixed chunks of 4, with no
height bound); an artifact is never split and never dropped: the placements
list exactly the identifiers that have an artifact. -/
theorem pack_sheets_at_most_four (height : String → Option Nat) (order : List String) :
    (∀ m ∈ (pack_sheets_stable height order).1, 1 ≤ m.labels ∧ m.labels ≤ 4) ∧
    (pack_sheets_stable height order).2.map Placement.id
      = order.filter fun cid => (height cid).isSome := by
  refine ⟨?_, pack_ids height order⟩
  intro m hm
  rw [pack_sheets_stable_eq] at hm
  obtain ⟨p, hp, rfl⟩ := List.mem_map.mp hm
  have hmem : p.2 ∈ chunk4 (order.filter fun cid => (height cid).isSome) := by
    have := List.mem_map_of_mem Prod.snd hp
    rwa [List.enumFrom_map_snd] at this
  exact chunk4_length_bounds _ p.2 hmem

/-- C2 amended witness: on the counterexample input, the single emitted
sheet's label count 3 lies between 1 and 4. -/
theorem pack_sheets_at_most_four_witness :
    1 ≤ (SheetMeta.mk (sheetName 1) 316 3).labels ∧
      (SheetMeta.mk (sheetName 1) 316 3).labels ≤ 4 := by
  have h := pack_sheets_at_most_four (fun _ => some 100) ["CN001", "CN002", "CN003"]
  refine h.1 ⟨sheetName 1, 316, 3⟩ ?_
  rw [pack_sheets_stable_eq]
  decide

/-- C7. The placements across all sheets are exactly the identifiers of the
stable order that have an artifact, in order (none dropped, none
duplicated, every identifier without an artifact skipped without blocking
the rest), and the label counts of the emitted sheets — the trailing
partial sheet included — sum to the number of such identifiers. -/
theorem pack_placements_complete (height : String → Option Nat) (order : List String) :
    (pack_sheets_stable height order).2.map Placement.id
        = order.filter (fun cid => (height cid).isSome) ∧
    ((pack_sheets_stable height order).1.map SheetMeta.labels).sum
        = (order.filter fun cid => (height cid).isSome).length :=
  ⟨pack_ids height order, pack_labels_sum height order⟩

/-- C10. The implemented packer takes labels in consecutive chunks of 4:
sheet metadata and placements are generated chunkwise (heights are the sum
of the chunk's label heights plus an 8-pixel gap per adjacent pair,
positions within a sheet are numbered from 1), every sheet except possibly
the last holds exactly 4 labels, the last between 1 and 4, and the chunks
concatenate back to the packed sequence. -/
theorem pack_fixed_chunks (height : String → Option Nat) (order : List String) :
    (pack_sheets_stable height order).1
        = ((chunk4 (order.filter fun cid => (height cid).isSome)).enumFrom 1).map
            (fun p => ⟨sheetName p.1,
              (p.2.map fun cid => (height cid).getD 0).sum + LABEL_GAP_PX * (p.2.length - 1),
              p.2.length⟩) ∧
    (pack_sheets_stable height order).2
        = ((chunk4 (order.filter fun cid => (height cid).isSome)).enumFrom 1).flatMap
            (fun p => (p.2.enumFrom 1).map fun q => ⟨sheetName p.1, q.1, q.2⟩) ∧
    (∀ c ∈ (chunk4 (order.filter fun cid => (height cid).isSome)).dropLast, c.length = 4) ∧
    (∀ c ∈ chunk4 (order.filter fun cid => (height cid).isSome), 1 ≤ c.length ∧ c.length ≤ 4) ∧
    (chunk4 (order.filter fun cid => (height cid).isSome)).flatten
        = order.filter fun cid => (height cid).isSome := by
  refine ⟨?_, ?_, chunk4_dropLast_length _, chunk4_length_bounds _, chunk4_flatten _⟩
  · rw [pack_sheets_stable_eq]
  · rw [pack_sheets_stable_eq]

/-- C10 witness: five artifacts of height 100 produce a full sheet of 4
labels (height `4·100 + 3·8 = 424`) and a trailing sheet with the fifth
label alone. -/
theorem pack_fixed_chunks_witness :
    (pack_sheets_stable (fun _ => some 100) ["A1", "A2", "A3", "A4", "A5"]).1.map
        SheetMeta.labels = [4, 1] ∧
    (pack_sheets_stable (fun _ => some 100) ["A1", "A2", "A3", "A4", "A5"]).1.map
        SheetMeta.height_px = [424, 100] := by
  have h := pack_fixed_chunks (fun _ => some 100) ["A1", "A2", "A3", "A4", "A5"]
  constructor
  · rw [h.1]; decide
  · rw [h.1]; decide

/-! ## Claim theorems: stable order (C1, C9) -/

/-- C1. `build_order` keeps exactly the previous identifiers still current,
in their stored relative order, followed by the fresh identifiers sorted
lexicographically; with a missing or unparseable assignment file the
previous order is empty, so the result is all current identifiers sorted
lexicographically. -/
theorem build_order_spec (prev S : List String) :
    (∃ T, build_order prev S = (prev.filter fun cid => decide (cid ∈ S)) ++ T ∧
        T.Perm (S.filter fun cid => !(decide (cid ∈ prev))) ∧ T.Sorted (· ≤ ·)) ∧
    (build_order_from AssignmentFile.missing S).Perm S ∧
    (build_order_from AssignmentFile.missing S).Sorted (· ≤ ·) ∧
    (build_order_from AssignmentFile.malformed S).Perm S ∧
    (build_order_from AssignmentFile.malformed S).Sorted (· ≤ ·) := by
  have hfilter : (S.filter fun cid => !(decide (cid ∈ ([] : List String)))) = S := by
    rw [List.filter_eq_self]
    intro a _
    simp
  have hempty : ∀ f, load_assignment f = [] →
      build_order_from f S = (S.filter fun cid =>
        !(decide (cid ∈ ([] : List String)))).insertionSort (· ≤ ·) := by
    intro f hf
    unfold build_order_from build_order
    rw [hf]
    rfl
  refine ⟨⟨(S.filter fun cid => !(decide (cid ∈ prev))).insertionSort (· ≤ ·),
      rfl, List.perm_insertionSort _ _, List.sorted_insertionSort _ _⟩, ?_, ?_, ?_, ?_⟩
  · rw [hempty AssignmentFile.missing rfl, hfilter]
    exact List.perm_insertionSort _ _
  · rw [hempty AssignmentFile.missing rfl]
    exact List.sorted_insertionSort _ _
  · rw [hempty AssignmentFile.malformed rfl, hfilter]
    exact List.perm_insertionSort _ _
  · rw [hempty AssignmentFile.malformed rfl]
    exact List.sorted_insertionSort _ _

/-- C9. Reconciling twice in a row with the same current identifiers and no
external change (the second run's previous order is the first run's saved
output) returns the identical order: every identifier is retained in place
and the fresh segment of the second run is empty. -/
theorem build_order_idempotent (prev S : List String) :
    build_order (build_order prev S) S = build_order prev S ∧
    (S.filter fun cid => !(decide (cid ∈ build_order prev S))) = [] := by
  have hsub2 : ∀ x ∈ S, x ∈ build_order prev S := by
    intro x hx
    unfold build_order
    simp only [List.mem_append, List.mem_filter, List.mem_insertionSort]
    by_cases hp : x ∈ prev
    · exact Or.inl ⟨hp, by simp [hx]⟩
    · exact Or.inr ⟨hx, by simp [hp]⟩
  have hsub1 : ∀ x ∈ build_order prev S, x ∈ S := by
    intro x hx
    unfold build_order at hx
    simp only [List.mem_append, List.mem_filter, List.mem_insertionSort] at hx
    rcases hx with ⟨-, h⟩ | ⟨h, -⟩
    · simpa using h
    · exact h
  have h2 : (S.filter fun cid => !(decide (cid ∈ build_order prev S))) = [] := by
    rw [List.filter_eq_nil_iff]
    intro a ha
    simp [hsub2 a ha]
  refine ⟨?_, h2⟩
  have hkeep : ((build_order prev S).filter fun cid => decide (cid ∈ S))
      = build_order prev S := by
    rw [List.filter_eq_self]
    intro a ha
    simp [hsub1 a ha]
  calc build_order (build_order prev S) S
      = ((build_order prev S).filter fun cid => decide (cid ∈ S)) ++
          (S.filter fun cid =>
            !(decide (cid ∈ build_order prev S))).insertionSort (· ≤ ·) := rfl
    _ = build_order prev S := by
        rw [hkeep, h2]
        simp [List.insertionSort]

/-! ## Helper lemmas: the registry pipeline -/

/-- Membership in the anchors set. -/
theorem mem_anchorsOf {items : List Item} {key : String} :
    key ∈ anchorsOf items ↔
      ∃ it ∈ items, it.is_family_anchor = true ∧ famKey it = key := by
  unfold anchorsOf
  simp only [List.mem_map, List.mem_filter]
  constructor
  · rintro ⟨it, ⟨hit, ha⟩, hk⟩
    exact ⟨it, hit, ha, hk⟩
  · rintro ⟨it, hit, ha, hk⟩
    exact ⟨it, ⟨hit, ha⟩, hk⟩

/-- Membership in the items list produced by the scan loop. -/
theorem mem_mkItems {raws : List (String × Bool)} {it : Item} :
    it ∈ mkItems raws ↔
      ∃ r ∈ raws, ∃ cat num hund anch,
        parse_id r.1 = some (cat, num, hund, anch) ∧
          it = ⟨r.1, cat, num, hund, anch && r.2⟩ := by
  unfold mkItems
  rw [List.mem_filterMap]
  constructor
  · rintro ⟨r, hr, hf⟩
    cases hp : parse_id r.1 with
    | none => rw [hp] at hf; exact absurd hf (by simp)
    | some v =>
      obtain ⟨cat, num, hund, anch⟩ := v
      rw [hp] at hf
      simp only [Option.some.injEq] at hf
      exact ⟨r, hr, cat, num, hund, anch, hp, hf.symm⟩
  · rintro ⟨r, hr, cat, num, hund, anch, hp, rfl⟩
    exact ⟨r, hr, by rw [hp]⟩

/-- A key is present after `addMember` iff it is the inserted key or was
present already. -/
theorem mem_fst_addMember (fams : List (String × List String)) (k cid key : String) :
    key ∈ (addMember fams k cid).map Prod.fst ↔ key = k ∨ key ∈ fams.map Prod.fst := by
  induction fams with
  | nil => simp [addMember]
  | cons p rest ih =>
    obtain ⟨k0, ms⟩ := p
    by_cases h : k0 = k
    · subst h
      simp [addMember]
    · simp only [addMember, if_neg h, List.map_cons, List.mem_cons, ih]
      tauto

/-- Provenance through `addMember`: a member below a key either is the
newly inserted one under the inserted key, or was already below that key. -/
theorem mem_addMember_src {fams : List (String × List String)} {k cid key : String}
    {ms : List String} {cid' : String} :
    (key, ms) ∈ addMember fams k cid → cid' ∈ ms →
      (key = k ∧ cid' = cid) ∨ ∃ ms0, (key, ms0) ∈ fams ∧ cid' ∈ ms0 := by
  induction fams with
  | nil =>
    intro hmem hin
    simp only [addMember, List.mem_singleton, Prod.mk.injEq] at hmem
    obtain ⟨rfl, rfl⟩ := hmem
    exact Or.inl ⟨rfl, by simpa using hin⟩
  | cons p rest ih =>
    obtain ⟨k0, ms0⟩ := p
    intro hmem hin
    by_cases h : k0 = k
    · subst h
      rw [show addMember ((k0, ms0) :: rest) k0 cid = (k0, ms0 ++ [cid]) :: rest from by
        simp [addMember]] at hmem
      rcases List.mem_cons.mp hmem with heq | hmem2
      · obtain ⟨rfl, rfl⟩ := Prod.mk.inj heq
        rcases List.mem_append.mp hin with h1 | h2
        · exact Or.inr ⟨ms0, List.mem_cons_self _ _, h1⟩
        · exact Or.inl ⟨rfl, by simpa using h2⟩
      · exact Or.inr ⟨ms, List.mem_cons_of_mem _ hmem2, hin⟩
    · rw [show addMember ((k0, ms0) :: rest) k cid = (k0, ms0) :: addMember rest k cid from by
        simp [addMember, h]] at hmem
      rcases List.mem_cons.mp hmem with heq | hmem2
      · obtain ⟨rfl, rfl⟩ := Prod.mk.inj heq
        exact Or.inr ⟨ms, List.mem_cons_self _ _, hin⟩
      · rcases ih hmem2 hin with h1 | ⟨msx, hx, hinx⟩
        · exact Or.inl h1
        · exact Or.inr ⟨msx, List.mem_cons_of_mem _ hx, hinx⟩

/-- Keys present after folding the family-building loop. -/
theorem foldl_famStep_keys (anchors : List String) :
    ∀ (items : List Item) (fams : List (String × List String)) (key : String),
      key ∈ (items.foldl (famStep anchors) fams).map Prod.fst ↔
        key ∈ fams.map Prod.fst ∨ (key ∈ anchors ∧ ∃ it ∈ items, famKey it = key) := by
  intro items
  induction items with
  | nil => intro fams key; simp
  | cons it rest ih =>
    intro fams key
    rw [List.foldl_cons, ih]
    unfold famStep
    by_cases h : famKey it ∈ anchors
    · rw [if_pos h, mem_fst_addMember]
      constructor
      · rintro ((rfl | hf) | ⟨ha, it', hit', hk⟩)
        · exact Or.inr ⟨h, it, List.mem_cons_self _ _, rfl⟩
        · exact Or.inl hf
        · exact Or.inr ⟨ha, it', List.mem_cons_of_mem _ hit', hk⟩
      · rintro (hf | ⟨ha, it', hit', hk⟩)
        · exact Or.inl (Or.inr hf)
        · rcases List.mem_cons.mp hit' with rfl | hmem
          · exact Or.inl (Or.inl hk.symm)
          · exact Or.inr ⟨ha, it', hmem, hk⟩
    · rw [if_neg h]
      constructor
      · rintro (hf | ⟨ha, it', hit', hk⟩)
        · exact Or.inl hf
        · exact Or.inr ⟨ha, it', List.mem_cons_of_mem _ hit', hk⟩
      · rintro (hf | ⟨ha, it', hit', hk⟩)
        · exact Or.inl hf
        · rcases List.mem_cons.mp hit' with rfl | hmem
          · exact absurd ha (hk ▸ h)
          · exact Or.inr ⟨ha, it', hmem, hk⟩

/-- Provenance through the family-building fold: every member below a key
comes from an item with that family key (or was in the initial map). -/
theorem foldl_famStep_src (anchors : List String) :
    ∀ (items : List Item) (fams : List (String × List String)) (key : String)
      (ms : List String) (cid : String),
      (key, ms) ∈ items.foldl (famStep anchors) fams → cid ∈ ms →
        (∃ ms0, (key, ms0) ∈ fams ∧ cid ∈ ms0) ∨
          ∃ it ∈ items, it.id = cid ∧ famKey it = key := by
  intro items
  induction items with
  | nil =>
    intro fams key ms cid hmem hin
    exact Or.inl ⟨ms, hmem, hin⟩
  | cons it rest ih =>
    intro fams key ms cid hmem hin
    rw [List.foldl_cons] at hmem
    rcases ih _ key ms cid hmem hin with ⟨ms0, hms0, hin0⟩ | ⟨it', h1, h2, h3⟩
    · unfold famStep at hms0
      by_cases h : famKey it ∈ anchors
      · rw [if_pos h] at hms0
        rcases mem_addMember_src hms0 hin0 with ⟨hk, hc⟩ | ⟨ms1, hms1, hin1⟩
        · exact Or.inr ⟨it, List.mem_cons_self _ _, hc.symm, hk.symm⟩
        · exact Or.inl ⟨ms1, hms1, hin1⟩
      · rw [if_neg h] at hms0
        exact Or.inl ⟨ms0, hms0, hin0⟩
    · exact Or.inr ⟨it', List.mem_cons_of_mem _ h1, h2, h3⟩

/-- The anchors of the scanned items, characterised over the raw inputs:
a conforming identifier whose number is divisible by 100 at an `index.md`
location. -/
theorem mem_anchors_raws {raws : List (String × Bool)} {key : String} :
    key ∈ anchorsOf (mkItems raws) ↔
      ∃ r ∈ raws, ∃ cat num hund anch,
        parse_id r.1 = some (cat, num, hund, anch) ∧ num % 100 = 0 ∧ r.2 = true ∧
          key = cat ++ toString hund ++ "xx" := by
  rw [mem_anchorsOf]
  constructor
  · rintro ⟨it, hit, hanchor, rfl⟩
    obtain ⟨r, hr, cat, num, hund, anch, hp, rfl⟩ := mem_mkItems.mp hit
    simp only [Bool.and_eq_true] at hanchor
    obtain ⟨ha, hb⟩ := hanchor
    have hflag := (parse_id_eq_some hp).1
    refine ⟨r, hr, cat, num, hund, anch, hp, ?_, hb, rfl⟩
    have h100 : (num % 100 == 0) = true := by rw [← hflag]; exact ha
    simpa using h100
  · rintro ⟨r, hr, cat, num, hund, anch, hp, h100, hb, rfl⟩
    refine ⟨⟨r.1, cat, num, hund, anch && r.2⟩,
      mem_mkItems.mpr ⟨r, hr, cat, num, hund, anch, hp, rfl⟩, ?_, rfl⟩
    have hflag := (parse_id_eq_some hp).1
    simp [hflag, h100, hb]

/-! ## Claim theorems: family report (C3) -/

/-- C3. A family key appears in the families report iff some conforming
component whose number is divisible by 100 exists for that category and
block at an `index.md` location; every member listed under a family comes
from an item whose family key is that (anchored) key; and every scanned
item's number is recorded in its category's used-number set regardless of
anchoring. -/
theorem families_iff_anchor (raws : List (String × Bool)) :
    (∀ key : String,
        key ∈ (buildFamilies (mkItems raws)).map Prod.fst ↔
          ∃ r ∈ raws, ∃ cat num hund anch,
            parse_id r.1 = some (cat, num, hund, anch) ∧ num % 100 = 0 ∧ r.2 = true ∧
              key = cat ++ toString hund ++ "xx") ∧
    (∀ key ms cid, (key, ms) ∈ buildFamilies (mkItems raws) → cid ∈ ms →
        key ∈ anchorsOf (mkItems raws) ∧
          ∃ it ∈ mkItems raws, it.id = cid ∧ famKey it = key) ∧
    (∀ it ∈ mkItems raws, it.number ∈ usedNumbersOf (mkItems raws) it.category) := by
  refine ⟨?_, ?_, ?_⟩
  · intro key
    rw [← mem_anchors_raws]
    unfold buildFamilies
    rw [List.map_map]
    rw [show (Prod.fst ∘ fun p : String × List String =>
        (p.1, p.2.insertionSort fun a b => id_num a ≤ id_num b)) = Prod.fst from rfl]
    rw [foldl_famStep_keys]
    simp only [List.map_nil, List.not_mem_nil, false_or]
    constructor
    · rintro ⟨ha, -⟩
      exact ha
    · intro ha
      obtain ⟨it, hit, -, hk⟩ := mem_anchorsOf.mp ha
      exact ⟨ha, it, hit, hk⟩
  · intro key ms cid hmem hin
    unfold buildFamilies at hmem
    obtain ⟨p, hp, heq⟩ := List.mem_map.mp hmem
    obtain ⟨hk, hms⟩ := Prod.mk.inj heq
    subst hk
    have hin' : cid ∈ p.2 := by
      rw [← hms] at hin
      exact List.mem_insertionSort _ |>.mp hin
    have hsrc := foldl_famStep_src (anchorsOf (mkItems raws)) (mkItems raws) [] p.1 p.2 cid
      (by simpa using hp) hin'
    rcases hsrc with ⟨ms0, hms0, -⟩ | hfound
    · exact absurd hms0 (List.not_mem_nil _)
    · have hkeys := (foldl_famStep_keys (anchorsOf (mkItems raws)) (mkItems raws) [] p.1).mp
        (List.mem_map_of_mem Prod.fst (by simpa using hp))
      simp only [List.map_nil, List.not_mem_nil, false_or] at hkeys
      exact ⟨hkeys.1, hfound⟩
  · intro it hit
    unfold usedNumbersOf
    rw [List.mem_insertionSort, List.mem_dedup, List.mem_map]
    exact ⟨it, List.mem_filter.mpr ⟨hit, by simp⟩, rfl⟩

/-- C3 witness: `PS200` at an index location anchors family `PS2xx`, while
`MC300` at a leaf location creates no `MC3xx` family even though it is
scanned. -/
theorem families_iff_anchor_witness :
    "PS2xx" ∈ (buildFamilies (mkItems
        [("PS200", true), ("PS250", false), ("MC300", false)])).map Prod.fst ∧
    "MC3xx" ∉ (buildFamilies (mkItems
        [("PS200", true), ("PS250", false), ("MC300", false)])).map Prod.fst := by
  have h := families_iff_anchor [("PS200", true), ("PS250", false), ("MC300", false)]
  constructor
  · exact (h.1 "PS2xx").mpr
      ⟨("PS200", true), by simp, "PS", 200, 2, true, by decide, by decide, rfl, by decide⟩
  · decide

/-! ## Claim theorems: category report (C8) -/

/-- C8. The categories report has exactly the fixed closed set of known
category codes as its keys; a known code with no scanned identifiers still
appears, with count 0 and `next_any = code ++ "001"`; any code outside the
closed set is absent, whatever the data contains. -/
theorem categories_closed_set (raws : List (String × Bool)) :
    (buildCategories (mkItems raws)).map Prod.fst = CATEGORY_TITLES.map Prod.fst ∧
    (∀ code title, (code, title) ∈ CATEGORY_TITLES →
        (∀ it ∈ mkItems raws, it.category ≠ code) →
        ∃ e, (code, e) ∈ buildCategories (mkItems raws) ∧ e.count = 0 ∧
          e.next_any = some (code ++ "001")) ∧
    (∀ code, code ∉ CATEGORY_TITLES.map Prod.fst →
        ∀ e, (code, e) ∉ buildCategories (mkItems raws)) := by
  refine ⟨?_, ?_, ?_⟩
  · unfold buildCategories
    rw [List.map_map]
    rfl
  · intro code title hmem hnone
    have hnums : usedNumbersOf (mkItems raws) code = [] := by
      unfold usedNumbersOf
      have hfil : (mkItems raws).filter (fun it => it.category == code) = [] := by
        rw [List.filter_eq_nil_iff]
        intro it hit
        simp [hnone it hit]
      rw [hfil]
      rfl
    refine ⟨_, List.mem_map.mpr ⟨(code, title), hmem, rfl⟩, ?_, ?_⟩
    · show (usedNumbersOf (mkItems raws) code).length = 0
      rw [hnums]
      rfl
    · show ((if (usedNumbersOf (mkItems raws) code).isEmpty then some "001"
          else next_number (usedNumbersOf (mkItems raws) code)).map
            fun s => code ++ s) = some (code ++ "001")
      rw [hnums]
      rfl
  · intro code hnot e hmem
    unfold buildCategories at hmem
    obtain ⟨p, hp, heq⟩ := List.mem_map.mp hmem
    have hfst : p.1 = code := (Prod.mk.inj heq).1
    exact hnot (hfst ▸ List.mem_map_of_mem Prod.fst hp)

/-- C8 witness: with only the conforming identifier `ZZ123` in the data,
the known code `TS` still reports count 0 and next `TS001`, while the
observed code `ZZ` has no entry. -/
theorem categories_closed_set_witness :
    (∃ e, ("TS", e) ∈ buildCategories (mkItems [("ZZ123", false)]) ∧ e.count = 0 ∧
        e.next_any = some ("TS" ++ "001")) ∧
    ∀ e, ("ZZ", e) ∉ buildCategories (mkItems [("ZZ123", false)]) := by
  have h := categories_closed_set [("ZZ123", false)]
  exact ⟨h.2.1 "TS" "Temperature sensors (DS18B20, PT100, MAX31865, etc.)"
      (by decide) (by decide),
    h.2.2 "ZZ" (by decide)⟩

end Catalog
